import Mathlib

/-!
Verification development for the regional/BFS web discovery engine of the
Knowledge_Base_Demo repository.  The Python sources embedded here are
`comprehensive_pdf_discovery_test.py` (class `ComprehensivePDFDiscovery`:
`is_pdf_url`, `is_relevant_link`, `discover_pdfs_bfs`) and
`regional_enhanced_crawler.py` (class `RegionalEnhancedCrawler`:
`us_states`, `regional_keywords`, `regional_url_indicators`,
`detect_regional_indicators`, `score_regional_relevance`,
`generate_state_specific_urls`, `discover_regional_content_bfs`).

Strings are embedded as lists of characters; Python `str.lower()` is
modelled for the ASCII range, and the library collaborators
`urllib.parse.urlparse`/`urljoin` and the Selenium fetcher are modelled
explicitly (the fetcher as a finite association list from URL to page
content, the resolver as an explicit function parameter).  Wall-clock
time is modelled by a counter advanced by a per-URL fetch-duration
oracle, so that temporal claims about the loop guards become statements
about the recorded start instants of fetch events.
-/

abbrev Str := List Char

/-- Coerce a Lean string literal to the character-list representation. -/
def str (s : String) : Str := s.data

/-- ASCII model of Python `str.lower` on one character. -/
def lowerC (c : Char) : Char :=
  if 'A' ≤ c ∧ c ≤ 'Z' then Char.ofNat (c.toNat + 32) else c

/-- ASCII model of Python `str.lower`. -/
def lowerL (s : Str) : Str := s.map lowerC

/-- First argument is a leading segment of the second (needle first). -/
def leadsL : Str → Str → Bool
  | [], _ => true
  | _ :: _, [] => false
  | a :: as, b :: bs => a = b && leadsL as bs

/-- Model of the Python substring test `needle in hay` (hay first). -/
def containsSub : Str → Str → Bool
  | hay, needle =>
    leadsL needle hay ||
      match hay with
      | [] => false
      | _ :: t => containsSub t needle

/-- Model of Python `hay.endswith(needle)` (hay first). -/
def endsWithL (hay needle : Str) : Bool := leadsL needle.reverse hay.reverse

/-- Model of Python `hay.replace(needle, repl)`: left-to-right,
non-overlapping replacement of every occurrence. -/
def replaceAll : Str → Str → Str → Str
  | hay, [], _ => hay
  | [], _ :: _, _ => []
  | c :: t, n :: ns, repl =>
    if leadsL (n :: ns) (c :: t) then
      repl ++ replaceAll ((c :: t).drop (n :: ns).length) (n :: ns) repl
    else
      c :: replaceAll t (n :: ns) repl
termination_by hay _ _ => hay.length
decreasing_by
  · simp only [List.length_drop, List.length_cons]
    omega
  · simp only [List.length_cons]
    omega

/-- Return the remainder of the haystack after the first occurrence of the
needle, if any (needle first). -/
def dropAfterSub (needle : Str) : Str → Option Str
  | [] => if leadsL needle [] then some [] else none
  | c :: t =>
    if leadsL needle (c :: t) then some ((c :: t).drop needle.length)
    else dropAfterSub needle t

/-- Model of `urllib.parse.urlparse(u).netloc` for URLs carrying an
explicit scheme: the text after the first "://" up to the next reserved
delimiter, and empty when no "://" occurs. -/
def netloc (u : Str) : Str :=
  match dropAfterSub (str "://") u with
  | none => []
  | some rest => rest.takeWhile (fun c => ¬ (c = '/' ∨ c = '?' ∨ c = '#'))

/-- Model of `urllib.parse.urlparse(u).path`: everything after the
authority up to the query or fragment delimiter. -/
def pathOf (u : Str) : Str :=
  let rest :=
    match dropAfterSub (str "://") u with
    | none => u
    | some r => r.dropWhile (fun c => ¬ (c = '/' ∨ c = '?' ∨ c = '#'))
  rest.takeWhile (fun c => ¬ (c = '?' ∨ c = '#'))

/-- Model of `urllib.parse.urlparse(u).query`: the text between the first
question mark and the fragment delimiter. -/
def queryOf (u : Str) : Str :=
  match dropAfterSub (str "?") u with
  | none => []
  | some r => r.takeWhile (fun c => ¬ (c = '#'))

/-- Python truthiness-preserving membership of a domain pattern in a
netloc: `any(domain in parsed.netloc for domain in allowed_domains)`. -/
def domainOk (allowed : List Str) (u : Str) : Bool :=
  allowed.any (fun dmn => containsSub (netloc u) dmn)

/-- Source `ComprehensivePDFDiscovery.is_pdf_url`:
`url.lower().endswith('.pdf') or '.pdf' in url.lower()`. -/
def is_pdf_url (url : Str) : Bool :=
  endsWithL (lowerL url) (str ".pdf") || containsSub (lowerL url) (str ".pdf")

/-- Source `ComprehensivePDFDiscovery.is_relevant_link`: its
`relevant_keywords` list (18 entries, four more than the spec's list). -/
def relevant_keywords : List Str :=
  [str "provider", str "manual", str "guide", str "policy", str "procedure",
   str "prior auth", str "authorization", str "timely filing", str "appeals",
   str "claims", str "billing", str "coverage", str "benefits", str "forms",
   str "documents", str "resources", str "tools", str "materials"]

/-- Source `ComprehensivePDFDiscovery.is_relevant_link(text, href)`:
`any(keyword in (text.lower() + " " + href.lower()) for keyword in
relevant_keywords)`. -/
def is_relevant_link (text href : Str) : Bool :=
  let combined := lowerL text ++ str " " ++ lowerL href
  relevant_keywords.any (fun kw => containsSub combined kw)

/-- Configuration of one `discover_pdfs_bfs` crawl.  The page graph
models the Selenium fetcher: a URL maps to the (anchor text, href) pairs
extracted from its rendered page; a URL absent from the graph models the
exception path of a failed fetch.  `resolve` models
`urllib.parse.urljoin`, `fetchTime` is the wall-clock cost oracle of one
`driver.get`. -/
structure BfsCfg where
  graph : List (Str × List (Str × Str))
  allowed : List Str
  resolve : Str → Str → Str
  fetchTime : Str → Nat
  maxDepth : Nat
  maxUrls : Nat

/-- Ghost record of one fetcher invocation: URL, task depth, and the
clock value at which the fetch began. -/
structure FetchEv where
  url : Str
  depth : Nat
  time : Nat
deriving DecidableEq

/-- Mutable state of the `discover_pdfs_bfs` loop, with ghost logs. -/
structure BfsSt where
  queue : List (Str × Nat)
  visited : List Str
  pdfs : List Str
  fetchLog : List FetchEv
  pdfLog : List (Str × Nat)
  clock : Nat
deriving DecidableEq

/-- Result record of `discover_pdfs_bfs` (the returned dictionary),
extended with the ghost fetch and PDF-discovery logs. -/
structure BfsRes where
  pdfsDiscovered : List Str
  urlsVisited : List Str
  totalPdfs : Nat
  totalUrlsVisited : Nat
  fetchLog : List FetchEv
  pdfLog : List (Str × Nat)
deriving DecidableEq

/-- Page lookup in the fetcher model (association list, first match). -/
def lookupPage (g : List (Str × List (Str × Str))) (u : Str) :
    Option (List (Str × Str)) :=
  match g with
  | [] => none
  | (k, v) :: rest => if k = u then some v else lookupPage rest u

/-- The inner `for link in links` loop of `discover_pdfs_bfs`: walks the
extracted links of the page at `u` (depth `d`), accumulating the PDF set,
the ghost PDF log, and the tasks appended to the frontier. -/
def procLinks (cfg : BfsCfg) (u : Str) (d : Nat) (visited : List Str) :
    List (Str × Str) → List Str → List (Str × Nat) → List (Str × Nat) →
    List Str × List (Str × Nat) × List (Str × Nat)
  | [], pdfs, plog, acc => (pdfs, plog, acc)
  | (text, href) :: rest, pdfs, plog, acc =>
    let au := cfg.resolve u href
    if domainOk cfg.allowed au then
      if is_pdf_url au then
        procLinks cfg u d visited rest
          (if au ∈ pdfs then pdfs else pdfs ++ [au]) (plog ++ [(au, d)]) acc
      else if is_relevant_link text href ∧ d < cfg.maxDepth ∧ au ∉ visited then
        procLinks cfg u d visited rest pdfs plog (acc ++ [(au, d + 1)])
      else
        procLinks cfg u d visited rest pdfs plog acc
    else
      procLinks cfg u d visited rest pdfs plog acc

/-- Build the returned record from the final loop state. -/
def bfsFinish (st : BfsSt) : BfsRes :=
  { pdfsDiscovered := st.pdfs
    urlsVisited := st.visited
    totalPdfs := st.pdfs.length
    totalUrlsVisited := st.visited.length
    fetchLog := st.fetchLog
    pdfLog := st.pdfLog }

/-- Outcome of one iteration of the crawl loop: either the loop exit
condition fired and the result record is returned, or the loop proceeds
with an updated state. -/
inductive BfsStep where
  | done (res : BfsRes)
  | next (st : BfsSt)
deriving DecidableEq

/-- One iteration of the `while queue and len(visited_urls) < max_urls`
loop of `discover_pdfs_bfs`: exit when the frontier is empty or the
visited ceiling is reached; discard already-visited or over-depth tasks;
otherwise mark visited, fetch, and on success process the page links. -/
def bfsStep (cfg : BfsCfg) (st : BfsSt) : BfsStep :=
  match st.queue with
  | [] => .done (bfsFinish st)
  | (u, d) :: rest =>
    if cfg.maxUrls ≤ st.visited.length then .done (bfsFinish st)
    else if u ∈ st.visited ∨ cfg.maxDepth < d then .next { st with queue := rest }
    else
      match lookupPage cfg.graph u with
      | none =>
        .next
          { st with
            queue := rest
            visited := u :: st.visited
            fetchLog := st.fetchLog ++ [⟨u, d, st.clock⟩]
            clock := st.clock + cfg.fetchTime u + 1 }
      | some links =>
        .next
          { st with
            queue :=
              rest ++ (procLinks cfg u d (u :: st.visited) links st.pdfs st.pdfLog []).2.2
            visited := u :: st.visited
            pdfs := (procLinks cfg u d (u :: st.visited) links st.pdfs st.pdfLog []).1
            fetchLog := st.fetchLog ++ [⟨u, d, st.clock⟩]
            pdfLog := (procLinks cfg u d (u :: st.visited) links st.pdfs st.pdfLog []).2.1
            clock := st.clock + cfg.fetchTime u + 1 }

/-- The crawl loop of `discover_pdfs_bfs`, with an explicit fuel bound;
`none` means the fuel was exhausted before the exit condition fired. -/
def bfsLoop (cfg : BfsCfg) : Nat → BfsSt → Option BfsRes
  | 0, _ => none
  | fuel + 1, st =>
    match bfsStep cfg st with
    | .done res => some res
    | .next st' => bfsLoop cfg fuel st'

/-- Total number of links across all pages of the fetcher model. -/
def totalLinks (g : List (Str × List (Str × Str))) : Nat :=
  (g.map (fun p => p.2.length)).sum

/-- Number of page URLs of the graph not yet visited. -/
def missingCount (g : List (Str × List (Str × Str))) (visited : List Str) :
    Nat :=
  ((g.map Prod.fst).toFinset \ visited.toFinset).card

/-- Termination measure of the BFS loop. -/
def bfsPhi (cfg : BfsCfg) (st : BfsSt) : Nat :=
  st.queue.length + missingCount cfg.graph st.visited * (totalLinks cfg.graph + 1)

/-- A fuel amount sufficient for the loop to reach its exit condition. -/
def bfsFuel (cfg : BfsCfg) (seeds : List Str) : Nat :=
  seeds.length +
    (cfg.graph.map Prod.fst).toFinset.card * (totalLinks cfg.graph + 1) + 1

/-- Initial loop state: the frontier holds every seed at depth 0. -/
def bfsInit (seeds : List Str) : BfsSt :=
  { queue := seeds.map (fun u => (u, 0))
    visited := []
    pdfs := []
    fetchLog := []
    pdfLog := []
    clock := 0 }

/-- Source `ComprehensivePDFDiscovery.discover_pdfs_bfs`, run with the
sufficient fuel bound. -/
def discover_pdfs_bfs (cfg : BfsCfg) (seeds : List Str) : Option BfsRes :=
  bfsLoop cfg (bfsFuel cfg seeds) (bfsInit seeds)

/-- Source `RegionalEnhancedCrawler.us_states`: the 50 US states plus DC,
keyed by the two-letter postal code. -/
def us_states : List (Str × Str) :=
  [(str "AL", str "Alabama"), (str "AK", str "Alaska"), (str "AZ", str "Arizona"),
   (str "AR", str "Arkansas"), (str "CA", str "California"), (str "CO", str "Colorado"),
   (str "CT", str "Connecticut"), (str "DE", str "Delaware"), (str "FL", str "Florida"),
   (str "GA", str "Georgia"), (str "HI", str "Hawaii"), (str "ID", str "Idaho"),
   (str "IL", str "Illinois"), (str "IN", str "Indiana"), (str "IA", str "Iowa"),
   (str "KS", str "Kansas"), (str "KY", str "Kentucky"), (str "LA", str "Louisiana"),
   (str "ME", str "Maine"), (str "MD", str "Maryland"), (str "MA", str "Massachusetts"),
   (str "MI", str "Michigan"), (str "MN", str "Minnesota"), (str "MS", str "Mississippi"),
   (str "MO", str "Missouri"), (str "MT", str "Montana"), (str "NE", str "Nebraska"),
   (str "NV", str "Nevada"), (str "NH", str "New Hampshire"), (str "NJ", str "New Jersey"),
   (str "NM", str "New Mexico"), (str "NY", str "New York"), (str "NC", str "North Carolina"),
   (str "ND", str "North Dakota"), (str "OH", str "Ohio"), (str "OK", str "Oklahoma"),
   (str "OR", str "Oregon"), (str "PA", str "Pennsylvania"), (str "RI", str "Rhode Island"),
   (str "SC", str "South Carolina"), (str "SD", str "South Dakota"), (str "TN", str "Tennessee"),
   (str "TX", str "Texas"), (str "UT", str "Utah"), (str "VT", str "Vermont"),
   (str "VA", str "Virginia"), (str "WA", str "Washington"), (str "WV", str "West Virginia"),
   (str "WI", str "Wisconsin"), (str "WY", str "Wyoming"),
   (str "DC", str "District of Columbia")]

/-- Source `RegionalEnhancedCrawler.regional_keywords`. -/
def regional_keywords : List Str :=
  [str "state specific", str "state-specific", str "by state", str "regional",
   str "medicaid", str "medicare", str "state plan", str "local coverage",
   str "geographic", str "territory", str "area", str "zone"]

/-- Character class test for the regex atom `[a-z]`. -/
def isLowerAlpha (c : Char) : Bool := 'a' ≤ c && c ≤ 'z'

/-- Character class test for the regex atom `[A-Z]`. -/
def isUpperAlpha (c : Char) : Bool := 'A' ≤ c && c ≤ 'Z'

/-- Matcher for the source regex `/[a-z]{2}/` (state-code path segment):
true iff the string contains a slash, two lowercase letters, then a
slash. -/
def hasTwoLowerSeg : Str → Bool
  | c1 :: c2 :: c3 :: c4 :: rest =>
    (c1 = '/' && isLowerAlpha c2 && isLowerAlpha c3 && c4 = '/') ||
      hasTwoLowerSeg (c2 :: c3 :: c4 :: rest)
  | _ => false

/-- Matcher for the source regex `/[A-Z]{2}[_-]` (uppercase state code
with separator). -/
def hasTwoUpperSep : Str → Bool
  | c1 :: c2 :: c3 :: c4 :: rest =>
    (c1 = '/' && isUpperAlpha c2 && isUpperAlpha c3 && (c4 = '_' || c4 = '-')) ||
      hasTwoUpperSep (c2 :: c3 :: c4 :: rest)
  | _ => false

/-- Source `RegionalEnhancedCrawler.regional_url_indicators`, each regex
rendered as an executable matcher, in declaration order. -/
def regional_url_indicators : List (Str → Bool) :=
  [fun u => containsSub u (str "/state/") || containsSub u (str "/states/"),
   fun u => containsSub u (str "/region/") || containsSub u (str "/regions/"),
   fun u => containsSub u (str "/area/") || containsSub u (str "/areas/"),
   fun u => containsSub u (str "/local/"),
   fun u => containsSub u (str "/geographic/"),
   fun u => hasTwoLowerSeg u,
   fun u => hasTwoUpperSep u,
   fun u => containsSub u (str "medicaid"),
   fun u => containsSub u (str "medicare"),
   fun u => containsSub u (str "state_specific") || containsSub u (str "state-specific")]

/-- Tag `state_XX` for a postal code, as produced by the source
f-string `f'state_{state_code}'`. -/
def stateTag (code : Str) : Str := str "state_" ++ code

/-- Tag for one regional keyword, as produced by the source f-string
`f'keyword_{keyword.replace(" ", "_")}'`. -/
def keywordTag (kw : Str) : Str := str "keyword_" ++ replaceAll kw (str " ") (str "_")

/-- Source `RegionalEnhancedCrawler.detect_regional_indicators(url, text)`.
The Python function accumulates tags into a set; the model returns the
tags in scan order as a list, which is membership-equivalent. -/
def detect_regional_indicators (url text : Str) : List Str :=
  let url_lower := lowerL url
  let text_lower := lowerL text
  (regional_url_indicators.filterMap fun pat =>
    if pat url_lower then some (str "regional_url_pattern") else none) ++
  (us_states.filterMap fun p =>
    if containsSub url_lower (str "/" ++ lowerL p.1 ++ str "/") ||
        containsSub url_lower (p.1 ++ str "_")
    then some (stateTag p.1) else none) ++
  (regional_keywords.filterMap fun kw =>
    if containsSub text_lower kw then some (keywordTag kw) else none) ++
  (us_states.filterMap fun p =>
    if containsSub text_lower (lowerL p.2) then some (stateTag p.1) else none)

/-- The source's `high_value_terms` inside `score_regional_relevance`. -/
def high_value_terms : List Str :=
  [str "provider portal", str "state portal", str "select your state",
   str "choose state", str "by location"]

/-- Source `RegionalEnhancedCrawler.score_regional_relevance(url, text)`. -/
def score_regional_relevance (url text : Str) : Nat :=
  let url_lower := lowerL url
  let text_lower := lowerL text
  (if regional_url_indicators.any (fun pat => pat url_lower) then 5 else 0) +
    2 * (regional_keywords.countP fun kw => containsSub text_lower kw) +
    min (us_states.countP fun p => containsSub text_lower (lowerL p.2)) 10 +
    3 * (high_value_terms.countP fun t => containsSub text_lower t)

/-- The source's `priority_states` inside `generate_state_specific_urls`. -/
def priority_states : List Str :=
  [str "CA", str "TX", str "FL", str "NY", str "PA",
   str "IL", str "OH", str "GA", str "NC", str "MI"]

/-- The eight URL templates of `generate_state_specific_urls`, with the
base domain spliced in and the state slot left open. -/
def state_url_patterns (base_domain : Str) : List (Str → Str) :=
  [fun st => str "https://www." ++ base_domain ++ str "/providers/" ++ st ++ str "/",
   fun st => str "https://provider." ++ base_domain ++ str "/" ++ st ++ str "/",
   fun st => str "https://providers." ++ base_domain ++ str "/" ++ st ++ str "/",
   fun st => str "https://www." ++ base_domain ++ str "/state/" ++ st ++ str "/",
   fun st => str "https://www." ++ base_domain ++ str "/regional/" ++ st ++ str "/",
   fun st => str "https://www." ++ base_domain ++ str "/" ++ st ++ str "/providers/",
   fun st => str "https://www." ++ base_domain ++ str "/medicaid/" ++ st ++ str "/",
   fun st => str "https://www." ++ base_domain ++ str "/medicare/" ++ st ++ str "/"]

/-- Full-name lookup `self.us_states[state_code]`. -/
def stateNameOf (code : Str) : Str :=
  ((us_states.find? fun p => decide (p.1 = code)).map Prod.snd).getD []

/-- Source `RegionalEnhancedCrawler.generate_state_specific_urls`: for
each priority state, each template is instantiated with the lowercase
postal code and then with the dash-joined lowercase full name.
`base_url` is accepted and unused, as in the source. -/
def generate_state_specific_urls (base_url base_domain : Str) : List Str :=
  priority_states.flatMap fun code =>
    (state_url_patterns base_domain).flatMap fun pat =>
      [pat (lowerL code),
       pat (replaceAll (lowerL (stateNameOf code)) (str " ") (str "-"))]

/-- The base-domain computation of `discover_regional_content_bfs`:
`urlparse(starting_urls[0]).netloc.replace('www.', '')
.replace('provider.', '').replace('providers.', '')`. -/
def regional_base_domain (seed : Str) : Str :=
  replaceAll (replaceAll (replaceAll (netloc seed) (str "www.") [])
    (str "provider.") []) (str "providers.") []

/-- The initial frontier of `discover_regional_content_bfs`: every seed
as a `(url, depth 0, score 0)` task, then (when seeds exist) the first 20
generated state-specific candidate URLs as `(url, depth 1, score 5)`
tasks, appended without any reachability or domain validation. -/
def regional_init_queue (seeds : List Str) : List (Str × Nat × Nat) :=
  seeds.map (fun u => (u, 0, 0)) ++
    match seeds with
    | [] => []
    | s :: _ =>
      ((generate_state_specific_urls s (regional_base_domain s)).take 20).map
        (fun u => (u, 1, 5))

/-- Entry of the `relevant_pages` result list. -/
structure RPage where
  url : Str
  score : Nat
  indicators : List Str
  depth : Nat
deriving DecidableEq

/-- Configuration of one `discover_regional_content_bfs` crawl.  The
page graph maps a URL to its page text plus extracted (anchor text,
href) pairs; absence models a failed fetch. -/
structure RegCfg where
  graph : List (Str × (Str × List (Str × Str)))
  allowed : List Str
  resolve : Str → Str → Str
  fetchTime : Str → Nat
  maxDepth : Nat
  maxTimeMinutes : Nat

/-- Mutable state of the regional BFS loop. -/
structure RegSt where
  queue : List (Str × Nat × Nat)
  visited : List Str
  urlsProcessed : Nat
  coverage : List Str
  allPdfs : List Str
  regionalPdfs : List (Str × Str)
  relevantPages : List RPage
  clock : Nat
deriving DecidableEq

/-- Result record of `discover_regional_content_bfs` (the compiled
results dictionary); the float `regional_completeness` is modelled as an
exact rational. -/
structure RegRes where
  urlsProcessed : Nat
  totalPdfsFound : Nat
  regionalPdfs : List (Str × Str)
  stateCoverage : List Str
  statesCoveredCount : Nat
  relevantPages : List RPage
  allPdfs : List Str
  regionalCompleteness : ℚ
deriving DecidableEq

/-- Page lookup in the regional fetcher model. -/
def lookupRegPage (g : List (Str × (Str × List (Str × Str)))) (u : Str) :
    Option (Str × List (Str × Str)) :=
  match g with
  | [] => none
  | (k, v) :: rest => if k = u then some v else lookupRegPage rest u

/-- The `state_coverage` update of the regional loop: every state code
whose `state_XX` tag occurs among the page indicators is added to the
coverage set (modelled as a duplicate-free list). -/
def addCoverage (indicators : List Str) (coverage : List Str) : List Str :=
  us_states.foldl
    (fun cov p =>
      if stateTag p.1 ∈ indicators ∧ p.1 ∉ cov then cov ++ [p.1] else cov)
    coverage

/-- The per-PDF state categorization of the regional loop: for every
indicator of the PDF of the form `state_XX` whose code is a known state,
append the pair `(XX, pdf_url)` to `regional_pdfs`. -/
def categorizePdf (au linkText : Str) (regPdfs : List (Str × Str)) :
    List (Str × Str) :=
  (detect_regional_indicators au linkText).foldl
    (fun acc tag =>
      if leadsL (str "state_") tag ∧ (tag.drop 6) ∈ us_states.map Prod.fst then
        acc ++ [(tag.drop 6, au)]
      else acc)
    regPdfs

/-- The inner link loop of `discover_regional_content_bfs`: walks the
extracted links, collecting PDFs, state-categorized PDFs, and the tasks
appended to the frontier.  The anchor text is lowercased before use, as
in the source (`link.get_text(strip=True).lower()`). -/
def procRegLinks (cfg : RegCfg) (u : Str) (d : Nat) (visited : List Str) :
    List (Str × Str) → List Str → List (Str × Str) → List (Str × Nat × Nat) →
    List Str × List (Str × Str) × List (Str × Nat × Nat)
  | [], pdfs, regPdfs, acc => (pdfs, regPdfs, acc)
  | (text, href) :: rest, pdfs, regPdfs, acc =>
    let linkText := lowerL text
    let au := cfg.resolve u href
    if domainOk cfg.allowed au then
      if endsWithL (lowerL au) (str ".pdf") || containsSub (lowerL au) (str ".pdf") then
        procRegLinks cfg u d visited rest (pdfs ++ [au])
          (categorizePdf au linkText regPdfs) acc
      else
        let lscore := score_regional_relevance au linkText
        if 3 ≤ lscore ∧ d < cfg.maxDepth ∧ au ∉ visited then
          procRegLinks cfg u d visited rest pdfs regPdfs (acc ++ [(au, d + 1, lscore)])
        else
          procRegLinks cfg u d visited rest pdfs regPdfs acc
    else
      procRegLinks cfg u d visited rest pdfs regPdfs acc

/-- Compile the results dictionary from the final regional loop state;
`regional_completeness` is `len(state_coverage) / 50 if state_coverage
else 0`, exactly as in the source. -/
def regFinish (st : RegSt) : RegRes :=
  { urlsProcessed := st.urlsProcessed
    totalPdfsFound := st.allPdfs.length
    regionalPdfs := st.regionalPdfs
    stateCoverage := st.coverage
    statesCoveredCount := st.coverage.length
    relevantPages := st.relevantPages
    allPdfs := st.allPdfs
    regionalCompleteness :=
      if st.coverage = [] then 0 else (st.coverage.length : ℚ) / 50 }

/-- Outcome of one iteration of the regional crawl loop. -/
inductive RegStep where
  | done (res : RegRes)
  | next (st : RegSt)
deriving DecidableEq

/-- One iteration of the main loop of `discover_regional_content_bfs`.
The loop guard is `queue and urls_processed < 50 and elapsed <
max_time_seconds` with `max_urls = 50` hardcoded in the source. -/
def regStep (cfg : RegCfg) (st : RegSt) : RegStep :=
  match st.queue with
  | [] => .done (regFinish st)
  | (u, d, _) :: rest =>
    if 50 ≤ st.urlsProcessed ∨ cfg.maxTimeMinutes * 60 ≤ st.clock then
      .done (regFinish st)
    else if u ∈ st.visited ∨ cfg.maxDepth < d then
      .next { st with queue := rest }
    else
      if domainOk cfg.allowed u then
        match lookupRegPage cfg.graph u with
        | none =>
          .next
            { st with
              queue := rest
              visited := u :: st.visited
              urlsProcessed := st.urlsProcessed + 1
              clock := st.clock + cfg.fetchTime u }
        | some (pageText, links) =>
          .next
            { st with
              queue :=
                rest ++ (procRegLinks cfg u d (u :: st.visited) links st.allPdfs
                  st.regionalPdfs []).2.2
              visited := u :: st.visited
              urlsProcessed := st.urlsProcessed + 1
              coverage :=
                addCoverage (detect_regional_indicators u pageText) st.coverage
              allPdfs :=
                (procRegLinks cfg u d (u :: st.visited) links st.allPdfs
                  st.regionalPdfs []).1
              regionalPdfs :=
                (procRegLinks cfg u d (u :: st.visited) links st.allPdfs
                  st.regionalPdfs []).2.1
              relevantPages :=
                if 5 ≤ score_regional_relevance u pageText then
                  st.relevantPages ++
                    [⟨u, score_regional_relevance u pageText,
                      detect_regional_indicators u pageText, d⟩]
                else st.relevantPages
              clock := st.clock + cfg.fetchTime u + 1 }
      else
        .next
          { st with
            queue := rest
            visited := u :: st.visited
            urlsProcessed := st.urlsProcessed + 1 }

/-- The regional crawl loop, with explicit fuel; `none` means the fuel
was exhausted before the exit condition fired. -/
def regLoop (cfg : RegCfg) : Nat → RegSt → Option RegRes
  | 0, _ => none
  | fuel + 1, st =>
    match regStep cfg st with
    | .done res => some res
    | .next st' => regLoop cfg fuel st'

/-- Source `RegionalEnhancedCrawler.discover_regional_content_bfs`, from
a fresh crawler instance (`visited_urls` empty), run with the supplied
fuel. -/
def discover_regional_content_bfs (cfg : RegCfg) (seeds : List Str)
    (fuel : Nat) : Option RegRes :=
  regLoop cfg fuel
    { queue := regional_init_queue seeds
      visited := []
      urlsProcessed := 0
      coverage := []
      allPdfs := []
      regionalPdfs := []
      relevantPages := []
      clock := 0 }

/-! ## Basic lemmas about the string model -/

lemma leadsL_iff (n : Str) : ∀ h : Str, leadsL n h = true ↔ ∃ t, h = n ++ t := by
  induction n with
  | nil => intro h; simp [leadsL]
  | cons a as ih =>
    intro h
    cases h with
    | nil => simp [leadsL]
    | cons b bs =>
      simp only [leadsL, Bool.and_eq_true, decide_eq_true_eq, ih, List.cons_append,
        List.cons.injEq]
      constructor
      · rintro ⟨rfl, t, rfl⟩; exact ⟨t, rfl, rfl⟩
      · rintro ⟨t, rfl, rfl⟩; exact ⟨rfl, t, rfl⟩

lemma containsSub_cons (c : Char) (t n : Str) (h : containsSub t n = true) :
    containsSub (c :: t) n = true := by
  rw [containsSub]; simp [h]

lemma containsSub_of_leads (h n : Str) (hl : leadsL n h = true) :
    containsSub h n = true := by
  rw [containsSub.eq_def]; simp [hl]

lemma containsSub_append_left (pre h n : Str) (hc : containsSub h n = true) :
    containsSub (pre ++ h) n = true := by
  induction pre with
  | nil => simpa
  | cons c cs ih => simpa using containsSub_cons c (cs ++ h) n ih

lemma leadsL_refl (n : Str) : leadsL n n = true := by
  induction n with
  | nil => simp [leadsL]
  | cons a as ih => simp [leadsL, ih]

lemma endsWith_imp_contains (h n : Str) (he : endsWithL h n = true) :
    containsSub h n = true := by
  unfold endsWithL at he
  rw [leadsL_iff] at he
  obtain ⟨t, ht⟩ := he
  have hh : h = t.reverse ++ n := by
    have := congrArg List.reverse ht
    simpa using this
  rw [hh]
  exact containsSub_append_left t.reverse n n
    (containsSub_of_leads n n (leadsL_refl n))

/-! ## Generic invariant and inversion lemmas for the two crawl loops -/

lemma bfsLoop_inv (cfg : BfsCfg) (P : BfsSt → Prop) (Q : BfsRes → Prop)
    (hnext : ∀ st st', P st → bfsStep cfg st = .next st' → P st')
    (hdone : ∀ st res, P st → bfsStep cfg st = .done res → Q res) :
    ∀ fuel st res, P st → bfsLoop cfg fuel st = some res → Q res := by
  intro fuel
  induction fuel with
  | zero => intro st res _ h; simp [bfsLoop] at h
  | succ n ih =>
    intro st res hP h
    rw [bfsLoop] at h
    cases hs : bfsStep cfg st with
    | done r =>
      rw [hs] at h
      simp only [Option.some.injEq] at h
      exact h ▸ hdone st r hP hs
    | next st' =>
      rw [hs] at h
      exact ih st' res (hnext st st' hP hs) h

lemma regLoop_inv (cfg : RegCfg) (P : RegSt → Prop) (Q : RegRes → Prop)
    (hnext : ∀ st st', P st → regStep cfg st = .next st' → P st')
    (hdone : ∀ st res, P st → regStep cfg st = .done res → Q res) :
    ∀ fuel st res, P st → regLoop cfg fuel st = some res → Q res := by
  intro fuel
  induction fuel with
  | zero => intro st res _ h; simp [regLoop] at h
  | succ n ih =>
    intro st res hP h
    rw [regLoop] at h
    cases hs : regStep cfg st with
    | done r =>
      rw [hs] at h
      simp only [Option.some.injEq] at h
      exact h ▸ hdone st r hP hs
    | next st' =>
      rw [hs] at h
      exact ih st' res (hnext st st' hP hs) h

/-! ## Claim C6: the document classifier -/

/-- Modelled from the spec: is_document is true iff the URL's path or
query string case-insensitively contains the substring ".pdf". -/
def spec_is_document (u : Str) : Bool :=
  containsSub (lowerL (pathOf u)) (str ".pdf") ||
    containsSub (lowerL (queryOf u)) (str ".pdf")

/-- C6 counterexample: for the URL https: slash slash x.pdf.test/page.html
the substring ".pdf" occurs only in the host, not in the path or query,
yet `is_pdf_url` returns true — so `is_pdf_url` is not equivalent to the
path-or-query predicate of the spec. -/
theorem C6_counterexample :
    is_pdf_url (str "https://x.pdf.test/page.html") = true ∧
    spec_is_document (str "https://x.pdf.test/page.html") = false := by
  decide

/-- C6 amended: `is_pdf_url u` holds exactly when ".pdf" occurs
case-insensitively anywhere in the whole URL string (host and fragment
included), not merely in the path or query component. -/
theorem C6_is_pdf_url_iff_whole_url (u : Str) :
    is_pdf_url u = containsSub (lowerL u) (str ".pdf") := by
  unfold is_pdf_url
  cases he : endsWithL (lowerL u) (str ".pdf") with
  | false => simp
  | true => simp [endsWith_imp_contains _ _ he]

/-! ## Claim C10: the template-generated state-specific frontier entries -/

/-- C10: with a non-empty seed list, the initial frontier of
`discover_regional_content_bfs` is the caller's seeds (depth 0, score 0)
followed by exactly the first 20 of the template-generated
state-specific candidate URLs, each at depth 1 with score 5, appended
without any reachability or domain validation. -/
theorem C10_regional_init_frontier (s : Str) (rest : List Str) :
    regional_init_queue (s :: rest) =
      (s :: rest).map (fun u => (u, 0, 0)) ++
        ((generate_state_specific_urls s (regional_base_domain s)).take 20).map
          (fun u => (u, 1, 5)) ∧
    ((generate_state_specific_urls s (regional_base_domain s)).take 20).length = 20 ∧
    ∀ t ∈ ((generate_state_specific_urls s (regional_base_domain s)).take 20).map
        (fun u : Str => ((u, 1, 5) : Str × Nat × Nat)),
      t.2.1 = 1 ∧ t.2.2 = 5 := by
  refine ⟨rfl, ?_, ?_⟩
  · have h160 : (generate_state_specific_urls s (regional_base_domain s)).length = 160 :=
      rfl
    simp [List.length_take, h160]
  · intro t ht
    simp only [List.mem_map] at ht
    obtain ⟨u, _, rfl⟩ := ht
    exact ⟨rfl, rfl⟩

/-! ## Claim C2: termination of the BFS loop -/

lemma procLinks_acc_len (cfg : BfsCfg) (u : Str) (d : Nat) (visited : List Str) :
    ∀ links pdfs plog acc,
      (procLinks cfg u d visited links pdfs plog acc).2.2.length ≤
        acc.length + links.length := by
  intro links
  induction links with
  | nil => intro pdfs plog acc; simp [procLinks]
  | cons l rest ih =>
    obtain ⟨text, href⟩ := l
    intro pdfs plog acc
    simp only [procLinks, List.length_cons]
    by_cases hd : domainOk cfg.allowed (cfg.resolve u href) = true
    · rw [if_pos hd]
      by_cases hp : is_pdf_url (cfg.resolve u href) = true
      · rw [if_pos hp]
        have := ih (if cfg.resolve u href ∈ pdfs then pdfs else pdfs ++ [cfg.resolve u href])
          (plog ++ [(cfg.resolve u href, d)]) acc
        omega
      · rw [if_neg hp]
        by_cases hr : is_relevant_link text href = true ∧ d < cfg.maxDepth ∧
            cfg.resolve u href ∉ visited
        · rw [if_pos hr]
          have := ih pdfs plog (acc ++ [(cfg.resolve u href, d + 1)])
          rw [List.length_append] at this
          simp only [List.length_cons, List.length_nil] at this
          omega
        · rw [if_neg hr]
          have := ih pdfs plog acc
          omega
    · rw [if_neg hd]
      have := ih pdfs plog acc
      omega

lemma lookupPage_mem_keys :
    ∀ (g : List (Str × List (Str × Str))) (u : Str) (l : List (Str × Str)),
      lookupPage g u = some l → u ∈ g.map Prod.fst := by
  intro g
  induction g with
  | nil => intro u l h; simp [lookupPage] at h
  | cons p rest ih =>
    intro u l h
    obtain ⟨k, v⟩ := p
    rw [lookupPage] at h
    by_cases hk : k = u
    · simp [hk]
    · rw [if_neg hk] at h
      simp only [List.map_cons, List.mem_cons]
      exact Or.inr (ih u l h)

lemma lookupPage_len_le :
    ∀ (g : List (Str × List (Str × Str))) (u : Str) (l : List (Str × Str)),
      lookupPage g u = some l → l.length ≤ totalLinks g := by
  intro g
  induction g with
  | nil => intro u l h; simp [lookupPage] at h
  | cons p rest ih =>
    intro u l h
    obtain ⟨k, v⟩ := p
    rw [lookupPage] at h
    have htl : totalLinks ((k, v) :: rest) = v.length + totalLinks rest := by
      simp [totalLinks]
    by_cases hk : k = u
    · rw [if_pos hk] at h
      cases h
      omega
    · rw [if_neg hk] at h
      have := ih u l h
      omega

lemma missingCount_cons_le (g : List (Str × List (Str × Str))) (u : Str)
    (v : List Str) : missingCount g (u :: v) ≤ missingCount g v := by
  unfold missingCount
  simp only [List.toFinset_cons]
  exact Finset.card_le_card
    (Finset.sdiff_subset_sdiff (Finset.Subset.refl _) (Finset.subset_insert _ _))

lemma missingCount_cons_eq (g : List (Str × List (Str × Str))) (u : Str)
    (v : List Str) (hk : u ∈ g.map Prod.fst) (hv : u ∉ v) :
    missingCount g (u :: v) + 1 = missingCount g v := by
  unfold missingCount
  simp only [List.toFinset_cons]
  rw [Finset.sdiff_insert, Finset.card_erase_of_mem]
  · have hpos : 0 < ((g.map Prod.fst).toFinset \ v.toFinset).card := by
      apply Finset.card_pos.mpr
      exact ⟨u, Finset.mem_sdiff.mpr
        ⟨List.mem_toFinset.mpr hk, fun hc => hv (List.mem_toFinset.mp hc)⟩⟩
    omega
  · exact Finset.mem_sdiff.mpr
      ⟨List.mem_toFinset.mpr hk, fun hc => hv (List.mem_toFinset.mp hc)⟩

lemma bfsStep_phi_decrease (cfg : BfsCfg) (st st' : BfsSt)
    (h : bfsStep cfg st = .next st') : bfsPhi cfg st' < bfsPhi cfg st := by
  unfold bfsStep at h
  split at h
  · exact absurd h (by simp)
  next u d rest hq =>
    split at h
    · exact absurd h (by simp)
    next h1 =>
      split at h
      next h2 =>
        simp only [BfsStep.next.injEq] at h
        subst h
        unfold bfsPhi
        simp only [hq, List.length_cons]
        omega
      next h2 =>
        push_neg at h2
        obtain ⟨hu, _⟩ := h2
        split at h
        next hl =>
          simp only [BfsStep.next.injEq] at h
          subst h
          unfold bfsPhi
          simp only [hq, List.length_cons]
          have hm := missingCount_cons_le cfg.graph u st.visited
          have := Nat.mul_le_mul_right (totalLinks cfg.graph + 1) hm
          omega
        next links hl =>
          simp only [BfsStep.next.injEq] at h
          subst h
          unfold bfsPhi
          simp only [hq, List.length_cons, List.length_append]
          have hacc := procLinks_acc_len cfg u d (u :: st.visited) links st.pdfs st.pdfLog []
          simp only [List.length_nil, Nat.zero_add] at hacc
          have hlen := lookupPage_len_le cfg.graph u links hl
          have hmc := missingCount_cons_eq cfg.graph u st.visited
            (lookupPage_mem_keys cfg.graph u links hl) hu
          have hexp : missingCount cfg.graph st.visited * (totalLinks cfg.graph + 1) =
              missingCount cfg.graph (u :: st.visited) * (totalLinks cfg.graph + 1) +
                (totalLinks cfg.graph + 1) := by
            rw [← hmc]
            ring
          omega

lemma bfsLoop_isSome (cfg : BfsCfg) :
    ∀ fuel st, bfsPhi cfg st < fuel → (bfsLoop cfg fuel st).isSome = true := by
  intro fuel
  induction fuel with
  | zero => intro st h; omega
  | succ n ih =>
    intro st h
    rw [bfsLoop]
    cases hs : bfsStep cfg st with
    | done r => simp
    | next st' =>
      have := bfsStep_phi_decrease cfg st st' hs
      exact ih st' (by omega)

/-- C2: for every finite link graph — cyclic graphs included — and any
budgets, `discover_pdfs_bfs` terminates: the loop, run with the computed
fuel bound, reaches its exit condition and returns a result. -/
theorem C2_bfs_terminates (cfg : BfsCfg) (seeds : List Str) :
    (discover_pdfs_bfs cfg seeds).isSome = true := by
  unfold discover_pdfs_bfs
  apply bfsLoop_isSome
  unfold bfsFuel bfsPhi bfsInit missingCount
  simp only [List.length_map, List.toFinset_nil, Finset.sdiff_empty]
  omega

/-! ## Membership lemmas for the link-processing loop -/

lemma procLinks_mem_acc (cfg : BfsCfg) (u : Str) (d : Nat) (visited : List Str) :
    ∀ links pdfs plog acc t,
      t ∈ (procLinks cfg u d visited links pdfs plog acc).2.2 →
      t ∈ acc ∨ ∃ text href, (text, href) ∈ links ∧
        domainOk cfg.allowed (cfg.resolve u href) = true ∧
        is_pdf_url (cfg.resolve u href) = false ∧
        is_relevant_link text href = true ∧ d < cfg.maxDepth ∧
        cfg.resolve u href ∉ visited ∧ t = (cfg.resolve u href, d + 1) := by
  intro links
  induction links with
  | nil =>
    intro pdfs plog acc t ht
    simp only [procLinks] at ht
    exact Or.inl ht
  | cons l rest ih =>
    obtain ⟨text, href⟩ := l
    intro pdfs plog acc t ht
    simp only [procLinks] at ht
    by_cases hd : domainOk cfg.allowed (cfg.resolve u href) = true
    · rw [if_pos hd] at ht
      by_cases hp : is_pdf_url (cfg.resolve u href) = true
      · rw [if_pos hp] at ht
        rcases ih _ _ _ _ ht with h | ⟨t2, h2, hm, hrest⟩
        · exact Or.inl h
        · exact Or.inr ⟨t2, h2, List.mem_cons_of_mem _ hm, hrest⟩
      · rw [if_neg hp] at ht
        by_cases hr : is_relevant_link text href = true ∧ d < cfg.maxDepth ∧
            cfg.resolve u href ∉ visited
        · rw [if_pos hr] at ht
          rcases ih _ _ _ _ ht with h | ⟨t2, h2, hm, hrest⟩
          · rcases List.mem_append.mp h with h | h
            · exact Or.inl h
            · simp only [List.mem_singleton] at h
              refine Or.inr ⟨text, href, List.mem_cons_self _ _, hd, ?_, hr.1, hr.2.1,
                hr.2.2, h⟩
              simpa using hp
          · exact Or.inr ⟨t2, h2, List.mem_cons_of_mem _ hm, hrest⟩
        · rw [if_neg hr] at ht
          rcases ih _ _ _ _ ht with h | ⟨t2, h2, hm, hrest⟩
          · exact Or.inl h
          · exact Or.inr ⟨t2, h2, List.mem_cons_of_mem _ hm, hrest⟩
    · rw [if_neg hd] at ht
      rcases ih _ _ _ _ ht with h | ⟨t2, h2, hm, hrest⟩
      · exact Or.inl h
      · exact Or.inr ⟨t2, h2, List.mem_cons_of_mem _ hm, hrest⟩

lemma procLinks_mem_plog (cfg : BfsCfg) (u : Str) (d : Nat) (visited : List Str) :
    ∀ links pdfs plog acc p,
      p ∈ (procLinks cfg u d visited links pdfs plog acc).2.1 →
      p ∈ plog ∨ ∃ text href, (text, href) ∈ links ∧
        domainOk cfg.allowed (cfg.resolve u href) = true ∧
        is_pdf_url (cfg.resolve u href) = true ∧
        p = (cfg.resolve u href, d) := by
  intro links
  induction links with
  | nil =>
    intro pdfs plog acc p hp
    simp only [procLinks] at hp
    exact Or.inl hp
  | cons l rest ih =>
    obtain ⟨text, href⟩ := l
    intro pdfs plog acc p hp
    simp only [procLinks] at hp
    by_cases hd : domainOk cfg.allowed (cfg.resolve u href) = true
    · rw [if_pos hd] at hp
      by_cases hpdf : is_pdf_url (cfg.resolve u href) = true
      · rw [if_pos hpdf] at hp
        rcases ih _ _ _ _ hp with h | ⟨t2, h2, hm, hrest⟩
        · rcases List.mem_append.mp h with h | h
          · exact Or.inl h
          · simp only [List.mem_singleton] at h
            exact Or.inr ⟨text, href, List.mem_cons_self _ _, hd, hpdf, h⟩
        · exact Or.inr ⟨t2, h2, List.mem_cons_of_mem _ hm, hrest⟩
      · rw [if_neg hpdf] at hp
        by_cases hr : is_relevant_link text href = true ∧ d < cfg.maxDepth ∧
            cfg.resolve u href ∉ visited
        · rw [if_pos hr] at hp
          rcases ih _ _ _ _ hp with h | ⟨t2, h2, hm, hrest⟩
          · exact Or.inl h
          · exact Or.inr ⟨t2, h2, List.mem_cons_of_mem _ hm, hrest⟩
        · rw [if_neg hr] at hp
          rcases ih _ _ _ _ hp with h | ⟨t2, h2, hm, hrest⟩
          · exact Or.inl h
          · exact Or.inr ⟨t2, h2, List.mem_cons_of_mem _ hm, hrest⟩
    · rw [if_neg hd] at hp
      rcases ih _ _ _ _ hp with h | ⟨t2, h2, hm, hrest⟩
      · exact Or.inl h
      · exact Or.inr ⟨t2, h2, List.mem_cons_of_mem _ hm, hrest⟩

/-! ## Claim C1: the no-revisit invariant -/

lemma bfsStep_preserves_nodup (cfg : BfsCfg) (st st' : BfsSt)
    (hP : st.visited.Nodup ∧ (∀ e ∈ st.fetchLog, e.url ∈ st.visited) ∧
      (st.fetchLog.map FetchEv.url).Nodup)
    (h : bfsStep cfg st = .next st') :
    st'.visited.Nodup ∧ (∀ e ∈ st'.fetchLog, e.url ∈ st'.visited) ∧
      (st'.fetchLog.map FetchEv.url).Nodup := by
  obtain ⟨h1, h2, h3⟩ := hP
  unfold bfsStep at h
  split at h
  · exact absurd h (by simp)
  next u d rest hq =>
    split at h
    · exact absurd h (by simp)
    next hmax =>
      split at h
      next hdisc =>
        simp only [BfsStep.next.injEq] at h
        subst h
        exact ⟨h1, h2, h3⟩
      next hvis =>
        push_neg at hvis
        obtain ⟨hu, _⟩ := hvis
        have hv' : (u :: st.visited).Nodup := List.nodup_cons.mpr ⟨hu, h1⟩
        have hl' : ∀ e ∈ st.fetchLog ++ [(⟨u, d, st.clock⟩ : FetchEv)],
            e.url ∈ u :: st.visited := by
          intro e he
          rcases List.mem_append.mp he with hh | hh
          · exact List.mem_cons_of_mem _ (h2 e hh)
          · simp only [List.mem_singleton] at hh
            subst hh
            exact List.mem_cons_self _ _
        have hm' : ((st.fetchLog ++ [(⟨u, d, st.clock⟩ : FetchEv)]).map
            FetchEv.url).Nodup := by
          rw [List.map_append, List.nodup_append]
          refine ⟨h3, by simp, ?_⟩
          intro x hx hx2
          simp only [List.map_cons, List.map_nil, List.mem_singleton] at hx2
          subst hx2
          obtain ⟨e, he, hely⟩ := List.mem_map.mp hx
          exact hu (hely ▸ h2 e he)
        split at h <;>
          (simp only [BfsStep.next.injEq] at h; subst h; exact ⟨hv', hl', hm'⟩)

/-- C1: for every crawl, the returned `urls_visited` list contains each
URL exactly once, and the fetcher log contains at most one entry per URL
— a URL is fetched at most once even when it occurs repeatedly among the
seeds or in the frontier. -/
theorem C1_no_revisit (cfg : BfsCfg) (seeds : List Str) (res : BfsRes)
    (h : discover_pdfs_bfs cfg seeds = some res) :
    res.urlsVisited.Nodup ∧ (res.fetchLog.map FetchEv.url).Nodup := by
  unfold discover_pdfs_bfs at h
  refine bfsLoop_inv cfg
    (fun st => st.visited.Nodup ∧ (∀ e ∈ st.fetchLog, e.url ∈ st.visited) ∧
      (st.fetchLog.map FetchEv.url).Nodup)
    (fun r => r.urlsVisited.Nodup ∧ (r.fetchLog.map FetchEv.url).Nodup)
    (fun st st' hP hs => bfsStep_preserves_nodup cfg st st' hP hs)
    ?_ (bfsFuel cfg seeds) (bfsInit seeds) res
    ⟨List.nodup_nil, by simp [bfsInit], by simp [bfsInit]⟩ h
  intro st r hP hs
  unfold bfsStep at hs
  split at hs
  · simp only [BfsStep.done.injEq] at hs
    subst hs
    exact ⟨hP.1, hP.2.2⟩
  next u d rest hq =>
    split at hs
    · simp only [BfsStep.done.injEq] at hs
      subst hs
      exact ⟨hP.1, hP.2.2⟩
    · split at hs
      · exact absurd hs (by simp)
      · split at hs <;> exact absurd hs (by simp)

/-- Concrete crawl for the C1 witness: duplicate seeds and a two-page
cycle. -/
def cfgC1w : BfsCfg :=
  { graph := [(str "a", [(str "provider", str "b")]),
              (str "b", [(str "provider", str "a")])]
    allowed := [str ""]
    resolve := fun _ href => href
    fetchTime := fun _ => 0
    maxDepth := 2
    maxUrls := 30 }

/-- The result of the C1 witness crawl. -/
def resC1w : BfsRes :=
  (discover_pdfs_bfs cfgC1w [str "a", str "a", str "b"]).getD ⟨[], [], 0, 0, [], []⟩

theorem C1_no_revisit_witness :
    resC1w.urlsVisited.Nodup ∧ (resC1w.fetchLog.map FetchEv.url).Nodup :=
  C1_no_revisit cfgC1w [str "a", str "a", str "b"] resC1w (by decide)

/-! ## Claim C3: the depth bound -/

lemma bfsStep_preserves_depth (cfg : BfsCfg) (st st' : BfsSt)
    (hP : (∀ t ∈ st.queue, t.2 ≤ cfg.maxDepth) ∧
      (∀ e ∈ st.fetchLog, e.depth ≤ cfg.maxDepth) ∧
      (∀ p ∈ st.pdfLog, p.2 ≤ cfg.maxDepth))
    (h : bfsStep cfg st = .next st') :
    (∀ t ∈ st'.queue, t.2 ≤ cfg.maxDepth) ∧
      (∀ e ∈ st'.fetchLog, e.depth ≤ cfg.maxDepth) ∧
      (∀ p ∈ st'.pdfLog, p.2 ≤ cfg.maxDepth) := by
  obtain ⟨h1, h2, h3⟩ := hP
  unfold bfsStep at h
  split at h
  · exact absurd h (by simp)
  next u d rest hq =>
    have hdle : d ≤ cfg.maxDepth :=
      h1 (u, d) (by rw [hq]; exact List.mem_cons_self _ _)
    have hrest : ∀ t ∈ rest, t.2 ≤ cfg.maxDepth := fun t ht =>
      h1 t (by rw [hq]; exact List.mem_cons_of_mem _ ht)
    split at h
    · exact absurd h (by simp)
    next hmax =>
      split at h
      next hdisc =>
        simp only [BfsStep.next.injEq] at h
        subst h
        exact ⟨hrest, h2, h3⟩
      next hvis =>
        have hlog' : ∀ e ∈ st.fetchLog ++ [(⟨u, d, st.clock⟩ : FetchEv)],
            e.depth ≤ cfg.maxDepth := by
          intro e he
          rcases List.mem_append.mp he with hh | hh
          · exact h2 e hh
          · simp only [List.mem_singleton] at hh
            subst hh
            exact hdle
        split at h
        next hl =>
          simp only [BfsStep.next.injEq] at h
          subst h
          exact ⟨hrest, hlog', h3⟩
        next links hl =>
          simp only [BfsStep.next.injEq] at h
          subst h
          refine ⟨?_, hlog', ?_⟩
          · intro t ht
            rcases List.mem_append.mp ht with hh | hh
            · exact hrest t hh
            · rcases procLinks_mem_acc cfg u d (u :: st.visited) links st.pdfs
                st.pdfLog [] t hh with hcc | ⟨tx, hrf, hm, hdm, hpf, hrl, hdd, hnv, heq⟩
              · simp at hcc
              · subst heq
                simpa using hdd
          · intro p hp
            rcases procLinks_mem_plog cfg u d (u :: st.visited) links st.pdfs
              st.pdfLog [] p hp with hcc | ⟨tx, hrf, hm, hdm, hpf, heq⟩
            · exact h3 p hcc
            · subst heq
              exact hdle

/-- C3: in every completed crawl, every fetched page (and hence every
visited URL) and every discovered PDF was processed at a depth of at
most `max_depth`: over-depth frontier tasks are discarded before the
fetch, and links are enqueued only at a depth of at most `max_depth`. -/
theorem C3_depth_bound (cfg : BfsCfg) (seeds : List Str) (res : BfsRes)
    (h : discover_pdfs_bfs cfg seeds = some res) :
    (∀ e ∈ res.fetchLog, e.depth ≤ cfg.maxDepth) ∧
      (∀ p ∈ res.pdfLog, p.2 ≤ cfg.maxDepth) := by
  unfold discover_pdfs_bfs at h
  refine bfsLoop_inv cfg
    (fun st => (∀ t ∈ st.queue, t.2 ≤ cfg.maxDepth) ∧
      (∀ e ∈ st.fetchLog, e.depth ≤ cfg.maxDepth) ∧
      (∀ p ∈ st.pdfLog, p.2 ≤ cfg.maxDepth))
    (fun r => (∀ e ∈ r.fetchLog, e.depth ≤ cfg.maxDepth) ∧
      (∀ p ∈ r.pdfLog, p.2 ≤ cfg.maxDepth))
    (fun st st' hP hs => bfsStep_preserves_depth cfg st st' hP hs)
    ?_ (bfsFuel cfg seeds) (bfsInit seeds) res
    ⟨?_, by simp [bfsInit], by simp [bfsInit]⟩ h
  · intro st r hP hs
    unfold bfsStep at hs
    split at hs
    · simp only [BfsStep.done.injEq] at hs
      subst hs
      exact ⟨hP.2.1, hP.2.2⟩
    next u d rest hq =>
      split at hs
      · simp only [BfsStep.done.injEq] at hs
        subst hs
        exact ⟨hP.2.1, hP.2.2⟩
      · split at hs
        · exact absurd hs (by simp)
        · split at hs <;> exact absurd hs (by simp)
  · intro t ht
    simp only [bfsInit, List.mem_map] at ht
    obtain ⟨u, _, rfl⟩ := ht
    simp

/-- Concrete crawl for the C3 witness: one seed, one relevant link, one
PDF link, depth limit 1. -/
def cfgC3w : BfsCfg :=
  { graph := [(str "a", [(str "manual", str "b"), (str "x", str "c.pdf")]),
              (str "b", [(str "manual", str "a")])]
    allowed := [str ""]
    resolve := fun _ href => href
    fetchTime := fun _ => 0
    maxDepth := 1
    maxUrls := 30 }

/-- The result of the C3 witness crawl. -/
def resC3w : BfsRes :=
  (discover_pdfs_bfs cfgC3w [str "a"]).getD ⟨[], [], 0, 0, [], []⟩

theorem C3_depth_bound_witness :
    (∀ e ∈ resC3w.fetchLog, e.depth ≤ cfgC3w.maxDepth) ∧
      (∀ p ∈ resC3w.pdfLog, p.2 ≤ cfgC3w.maxDepth) :=
  C3_depth_bound cfgC3w [str "a"] resC3w (by decide)

/-! ## Claim C4: domain containment -/

/-- Concrete crawl refuting C4 as stated: the seed's host matches no
allowed domain yet is fetched, and a link whose host merely contains an
allowed domain as a proper substring is also fetched. -/
def cfgC4c : BfsCfg :=
  { graph := [(str "https://evil/", [(str "provider", str "https://evilx.test/p")]),
              (str "https://evilx.test/p", [])]
    allowed := [str "x.test"]
    resolve := fun _ href => href
    fetchTime := fun _ => 0
    maxDepth := 2
    maxUrls := 30 }

/-- C4 counterexample: with AllowedDomainSet = x.test, the crawl fetches
the seed https: slash slash evil/ (host "evil", not a member and not even
a substring match) and the link https: slash slash evilx.test/p (host
"evilx.test", not a member of the set — it merely contains "x.test" as a
substring).  So it is false that a URL whose host is not a member of the
allowed-domain set is never fetched. -/
theorem C4_counterexample :
    ((discover_pdfs_bfs cfgC4c [str "https://evil/"]).map
        (fun r => r.fetchLog.map FetchEv.url)) =
      some [str "https://evil/", str "https://evilx.test/p"] ∧
    netloc (str "https://evil/") ∉ cfgC4c.allowed ∧
    netloc (str "https://evilx.test/p") ∉ cfgC4c.allowed ∧
    domainOk cfgC4c.allowed (str "https://evil/") = false := by
  decide

lemma bfsStep_preserves_domain (cfg : BfsCfg) (seeds : List Str) (st st' : BfsSt)
    (hP : (∀ t ∈ st.queue, t.1 ∈ seeds ∨ domainOk cfg.allowed t.1 = true) ∧
      (∀ v ∈ st.visited, v ∈ seeds ∨ domainOk cfg.allowed v = true))
    (h : bfsStep cfg st = .next st') :
    (∀ t ∈ st'.queue, t.1 ∈ seeds ∨ domainOk cfg.allowed t.1 = true) ∧
      (∀ v ∈ st'.visited, v ∈ seeds ∨ domainOk cfg.allowed v = true) := by
  obtain ⟨h1, h2⟩ := hP
  unfold bfsStep at h
  split at h
  · exact absurd h (by simp)
  next u d rest hq =>
    have hu : u ∈ seeds ∨ domainOk cfg.allowed u = true :=
      h1 (u, d) (by rw [hq]; exact List.mem_cons_self _ _)
    have hrest : ∀ t ∈ rest, t.1 ∈ seeds ∨ domainOk cfg.allowed t.1 = true :=
      fun t ht => h1 t (by rw [hq]; exact List.mem_cons_of_mem _ ht)
    split at h
    · exact absurd h (by simp)
    next hmax =>
      split at h
      next hdisc =>
        simp only [BfsStep.next.injEq] at h
        subst h
        exact ⟨hrest, h2⟩
      next hvis =>
        have hvis' : ∀ v ∈ u :: st.visited, v ∈ seeds ∨ domainOk cfg.allowed v = true := by
          intro v hv
          rcases List.mem_cons.mp hv with hh | hh
          · exact hh ▸ hu
          · exact h2 v hh
        split at h
        next hl =>
          simp only [BfsStep.next.injEq] at h
          subst h
          exact ⟨hrest, hvis'⟩
        next links hl =>
          simp only [BfsStep.next.injEq] at h
          subst h
          refine ⟨?_, hvis'⟩
          intro t ht
          rcases List.mem_append.mp ht with hh | hh
          · exact hrest t hh
          · rcases procLinks_mem_acc cfg u d (u :: st.visited) links st.pdfs
              st.pdfLog [] t hh with hcc | ⟨tx, hrf, hm, hdm, hpf, hrl, hdd, hnv, heq⟩
            · simp at hcc
            · subst heq
              exact Or.inr hdm

/-- C4 amended: seeds are fetched without any domain check, and extracted
links pass a substring check (some allowed domain occurs as a substring of
the link's netloc) rather than a membership test; hence every visited URL
is either a seed or satisfies the substring-containment check. -/
theorem C4_domain_filter (cfg : BfsCfg) (seeds : List Str) (res : BfsRes)
    (h : discover_pdfs_bfs cfg seeds = some res) :
    ∀ v ∈ res.urlsVisited, v ∈ seeds ∨ domainOk cfg.allowed v = true := by
  unfold discover_pdfs_bfs at h
  refine bfsLoop_inv cfg
    (fun st => (∀ t ∈ st.queue, t.1 ∈ seeds ∨ domainOk cfg.allowed t.1 = true) ∧
      (∀ v ∈ st.visited, v ∈ seeds ∨ domainOk cfg.allowed v = true))
    (fun r => ∀ v ∈ r.urlsVisited, v ∈ seeds ∨ domainOk cfg.allowed v = true)
    (fun st st' hP hs => bfsStep_preserves_domain cfg seeds st st' hP hs)
    ?_ (bfsFuel cfg seeds) (bfsInit seeds) res ⟨?_, by simp [bfsInit]⟩ h
  · intro st r hP hs
    unfold bfsStep at hs
    split at hs
    · simp only [BfsStep.done.injEq] at hs
      subst hs
      exact hP.2
    next u d rest hq =>
      split at hs
      · simp only [BfsStep.done.injEq] at hs
        subst hs
        exact hP.2
      · split at hs
        · exact absurd hs (by simp)
        · split at hs <;> exact absurd hs (by simp)
  · intro t ht
    simp only [bfsInit, List.mem_map] at ht
    obtain ⟨u, hu, rfl⟩ := ht
    exact Or.inl hu

/-- Concrete crawl for the C4 witness. -/
def cfgC4w : BfsCfg :=
  { graph := [(str "https://x.test/", [(str "provider", str "https://x.test/p")]),
              (str "https://x.test/p", [])]
    allowed := [str "x.test"]
    resolve := fun _ href => href
    fetchTime := fun _ => 0
    maxDepth := 2
    maxUrls := 30 }

/-- The result of the C4 witness crawl. -/
def resC4w : BfsRes :=
  (discover_pdfs_bfs cfgC4w [str "https://x.test/"]).getD ⟨[], [], 0, 0, [], []⟩

theorem C4_domain_filter_witness :
    (str "https://x.test/p") ∈ [str "https://x.test/"] ∨
      domainOk cfgC4w.allowed (str "https://x.test/p") = true :=
  C4_domain_filter cfgC4w [str "https://x.test/"] resC4w (by decide)
    (str "https://x.test/p") (by decide)

/-! ## Claim C7: the topical-relevance gate -/

/-- Modelled from the spec: the fixed fourteen-keyword topical set
(provider, manual, guide, policy, procedure, prior auth, authorization,
timely filing, appeals, claims, billing, coverage, benefits, forms). -/
def spec_topical_keywords : List Str :=
  [str "provider", str "manual", str "guide", str "policy", str "procedure",
   str "prior auth", str "authorization", str "timely filing", str "appeals",
   str "claims", str "billing", str "coverage", str "benefits", str "forms"]

/-- Modelled from the spec: topical_score as the number of the fourteen
spec keywords occurring in the combined lowercased anchor text and URL. -/
def spec_topical_score (text url2 : Str) : Nat :=
  spec_topical_keywords.countP
    (fun kw => containsSub (lowerL text ++ str " " ++ lowerL url2) kw)

/-- Concrete crawl refuting C7 as stated: a non-document link whose
combined anchor text and URL contains none of the fourteen spec keywords
is nevertheless enqueued and visited, because the source keyword list
additionally contains documents, resources, tools and materials. -/
def cfgC7c : BfsCfg :=
  { graph := [(str "a", [(str "documents", str "b")]), (str "b", [])]
    allowed := [str ""]
    resolve := fun _ href => href
    fetchTime := fun _ => 0
    maxDepth := 2
    maxUrls := 30 }

/-- C7 counterexample: the link with anchor "documents" and target "b"
has zero topical score under the spec's fourteen-keyword set and is not
a document, yet the crawl from seed "a" visits "b" — the link was
enqueued for traversal. -/
theorem C7_counterexample :
    spec_topical_score (str "documents") (str "b") = 0 ∧
    is_pdf_url (str "b") = false ∧
    ((discover_pdfs_bfs cfgC7c [str "a"]).map (fun r => r.urlsVisited)) =
      some [str "b", str "a"] := by
  decide

/-- A URL obtainable by resolving a link of some fetched page whose
anchor text or href passes the source's 18-keyword relevance filter. -/
def relevantDerived (cfg : BfsCfg) (v : Str) : Prop :=
  ∃ p text href links, lookupPage cfg.graph p = some links ∧
    (text, href) ∈ links ∧ is_relevant_link text href = true ∧
    v = cfg.resolve p href

lemma bfsStep_preserves_relevant (cfg : BfsCfg) (seeds : List Str) (st st' : BfsSt)
    (hP : (∀ t ∈ st.queue, t.1 ∈ seeds ∨ relevantDerived cfg t.1) ∧
      (∀ v ∈ st.visited, v ∈ seeds ∨ relevantDerived cfg v))
    (h : bfsStep cfg st = .next st') :
    (∀ t ∈ st'.queue, t.1 ∈ seeds ∨ relevantDerived cfg t.1) ∧
      (∀ v ∈ st'.visited, v ∈ seeds ∨ relevantDerived cfg v) := by
  obtain ⟨h1, h2⟩ := hP
  unfold bfsStep at h
  split at h
  · exact absurd h (by simp)
  next u d rest hq =>
    have hu : u ∈ seeds ∨ relevantDerived cfg u :=
      h1 (u, d) (by rw [hq]; exact List.mem_cons_self _ _)
    have hrest : ∀ t ∈ rest, t.1 ∈ seeds ∨ relevantDerived cfg t.1 :=
      fun t ht => h1 t (by rw [hq]; exact List.mem_cons_of_mem _ ht)
    split at h
    · exact absurd h (by simp)
    next hmax =>
      split at h
      next hdisc =>
        simp only [BfsStep.next.injEq] at h
        subst h
        exact ⟨hrest, h2⟩
      next hvis =>
        have hvis' : ∀ v ∈ u :: st.visited, v ∈ seeds ∨ relevantDerived cfg v := by
          intro v hv
          rcases List.mem_cons.mp hv with hh | hh
          · exact hh ▸ hu
          · exact h2 v hh
        split at h
        next hl =>
          simp only [BfsStep.next.injEq] at h
          subst h
          exact ⟨hrest, hvis'⟩
        next links hl =>
          simp only [BfsStep.next.injEq] at h
          subst h
          refine ⟨?_, hvis'⟩
          intro t ht
          rcases List.mem_append.mp ht with hh | hh
          · exact hrest t hh
          · rcases procLinks_mem_acc cfg u d (u :: st.visited) links st.pdfs
              st.pdfLog [] t hh with hcc | ⟨tx, hrf, hm, hdm, hpf, hrl, hdd, hnv, heq⟩
            · simp at hcc
            · subst heq
              exact Or.inr ⟨u, tx, hrf, links, hl, hm, hrl, rfl⟩

/-- C7 amended: the source's keyword set has eighteen entries — the
spec's fourteen plus documents, resources, tools, materials — and a
non-document link passing none of those eighteen keywords is never
enqueued: every visited URL is either a seed or the resolution of a link
whose anchor text or href matched `is_relevant_link`. -/
theorem C7_topical_gate (cfg : BfsCfg) (seeds : List Str) (res : BfsRes)
    (h : discover_pdfs_bfs cfg seeds = some res) :
    ∀ v ∈ res.urlsVisited, v ∈ seeds ∨ relevantDerived cfg v := by
  unfold discover_pdfs_bfs at h
  refine bfsLoop_inv cfg
    (fun st => (∀ t ∈ st.queue, t.1 ∈ seeds ∨ relevantDerived cfg t.1) ∧
      (∀ v ∈ st.visited, v ∈ seeds ∨ relevantDerived cfg v))
    (fun r => ∀ v ∈ r.urlsVisited, v ∈ seeds ∨ relevantDerived cfg v)
    (fun st st' hP hs => bfsStep_preserves_relevant cfg seeds st st' hP hs)
    ?_ (bfsFuel cfg seeds) (bfsInit seeds) res ⟨?_, by simp [bfsInit]⟩ h
  · intro st r hP hs
    unfold bfsStep at hs
    split at hs
    · simp only [BfsStep.done.injEq] at hs
      subst hs
      exact hP.2
    next u d rest hq =>
      split at hs
      · simp only [BfsStep.done.injEq] at hs
        subst hs
        exact hP.2
      · split at hs
        · exact absurd hs (by simp)
        · split at hs <;> exact absurd hs (by simp)
  · intro t ht
    simp only [bfsInit, List.mem_map] at ht
    obtain ⟨u, hu, rfl⟩ := ht
    exact Or.inl hu

/-- Concrete crawl for the C7 witness. -/
def cfgC7w : BfsCfg :=
  { graph := [(str "a", [(str "provider manual", str "b"), (str "zzz", str "c")]),
              (str "b", [])]
    allowed := [str ""]
    resolve := fun _ href => href
    fetchTime := fun _ => 0
    maxDepth := 2
    maxUrls := 30 }

/-- The result of the C7 witness crawl. -/
def resC7w : BfsRes :=
  (discover_pdfs_bfs cfgC7w [str "a"]).getD ⟨[], [], 0, 0, [], []⟩

theorem C7_topical_gate_witness :
    (str "b") ∈ [str "a"] ∨ relevantDerived cfgC7w (str "b") :=
  C7_topical_gate cfgC7w [str "a"] resC7w (by decide) (str "b") (by decide)

/-! ## Claim C5: the wall-clock budget of the comprehensive crawler -/

/-- Concrete crawl showing that `discover_pdfs_bfs` enforces no
wall-clock ceiling: every fetch takes 200 seconds while the advertised
per-payer budget of `test_single_payer` is 3 minutes = 180 seconds. -/
def cfgC5 : BfsCfg :=
  { graph := [(str "a", [(str "provider", str "b")]), (str "b", [])]
    allowed := [str ""]
    resolve := fun _ href => href
    fetchTime := fun _ => 200
    maxDepth := 2
    maxUrls := 30 }

/-- C5: the loop of `discover_pdfs_bfs` tests only the frontier and the
visited ceiling, never the elapsed time: with 200-second fetches and the
advertised 180-second budget, a second loop iteration still starts and
fetches at elapsed time 201 ≥ 180, so iterations are not confined to
elapsed times below the budget. -/
theorem C5_no_time_guard :
    (discover_pdfs_bfs cfgC5 [str "a"]).map
        (fun r => r.fetchLog.map (fun e => (e.url, e.depth, e.time))) =
      some [(str "a", 0, 0), (str "b", 1, 201)] ∧ 180 ≤ 201 := by
  decide

/-! ## Claim C8: the completeness ratio -/

lemma regStep_done_eq (cfg : RegCfg) (st : RegSt) (res : RegRes)
    (h : regStep cfg st = .done res) : res = regFinish st := by
  unfold regStep at h
  split at h
  · simp only [RegStep.done.injEq] at h
    exact h.symm
  · split at h
    · simp only [RegStep.done.injEq] at h
      exact h.symm
    · split at h
      · exact absurd h (by simp)
      · split at h
        · split at h <;> exact absurd h (by simp)
        · exact absurd h (by simp)

/-- C8 amended: the `regional_completeness` field of the result record
equals the number of distinct states covered divided by 50 — not 51 —
and 0 when no state was covered, so with DC counted among the states the
ratio can even exceed 1. -/
theorem C8_completeness_ratio (cfg : RegCfg) (seeds : List Str) (fuel : Nat)
    (res : RegRes) (h : discover_regional_content_bfs cfg seeds fuel = some res) :
    res.statesCoveredCount = res.stateCoverage.length ∧
    res.regionalCompleteness =
      (if res.stateCoverage = [] then 0 else (res.stateCoverage.length : ℚ) / 50) := by
  unfold discover_regional_content_bfs at h
  exact regLoop_inv cfg (fun _ => True)
    (fun r => r.statesCoveredCount = r.stateCoverage.length ∧
      r.regionalCompleteness =
        (if r.stateCoverage = [] then 0 else (r.stateCoverage.length : ℚ) / 50))
    (fun _ _ _ _ => trivial)
    (fun st r _ hs => by
      have hr := regStep_done_eq cfg st r hs
      subst hr
      exact ⟨rfl, rfl⟩)
    fuel _ res trivial h

/-- Concrete regional crawl refuting C8 as stated: one page whose text
mentions California. -/
def cfgC8c : RegCfg :=
  { graph := [(str "http://a/", (str "california", []))]
    allowed := [str ""]
    resolve := fun _ href => href
    fetchTime := fun _ => 200
    maxDepth := 3
    maxTimeMinutes := 3 }

/-- The final loop state of the C8 counterexample crawl: the seed page
was fetched (covering California) and the time guard then fired with the
template-generated state URLs still queued. -/
def stC8c : RegSt :=
  { queue :=
      ((generate_state_specific_urls (str "http://a/")
        (regional_base_domain (str "http://a/"))).take 20).map (fun u => (u, 1, 5))
    visited := [str "http://a/"]
    urlsProcessed := 1
    coverage := [str "CA"]
    allPdfs := []
    regionalPdfs := []
    relevantPages := []
    clock := 201 }

/-- C8 counterexample: the crawl covers exactly one state and reports
`regional_completeness` = 1/50, which differs from the 1/51 ratio the
claim prescribes (51 = 50 states + DC). -/
theorem C8_counterexample :
    discover_regional_content_bfs cfgC8c [str "http://a/"] 100 =
      some (regFinish stC8c) ∧
    (regFinish stC8c).statesCoveredCount = 1 ∧
    (regFinish stC8c).regionalCompleteness ≠
      ((regFinish stC8c).statesCoveredCount : ℚ) / 51 := by
  refine ⟨rfl, rfl, ?_⟩
  norm_num [regFinish, stC8c]

/-- Concrete regional crawl for the C8 witness: one page mentioning
Texas. -/
def cfgC8w : RegCfg :=
  { graph := [(str "http://b/", (str "texas", []))]
    allowed := [str ""]
    resolve := fun _ href => href
    fetchTime := fun _ => 200
    maxDepth := 3
    maxTimeMinutes := 3 }

/-- The final loop state of the C8 witness crawl. -/
def stC8w : RegSt :=
  { queue :=
      ((generate_state_specific_urls (str "http://b/")
        (regional_base_domain (str "http://b/"))).take 20).map (fun u => (u, 1, 5))
    visited := [str "http://b/"]
    urlsProcessed := 1
    coverage := [str "TX"]
    allPdfs := []
    regionalPdfs := []
    relevantPages := []
    clock := 201 }

theorem C8_completeness_ratio_witness :
    (regFinish stC8w).statesCoveredCount = (regFinish stC8w).stateCoverage.length ∧
    (regFinish stC8w).regionalCompleteness =
      (if (regFinish stC8w).stateCoverage = [] then 0
       else ((regFinish stC8w).stateCoverage.length : ℚ) / 50) :=
  C8_completeness_ratio cfgC8w [str "http://b/"] 100 (regFinish stC8w) rfl

/-! ## Claim C9: state tags and whole-token matching -/

/-- Modelled from the spec: true when the character before or after a
candidate occurrence is absent or not alphanumeric. -/
def tokenBoundary (oc : Option Char) : Bool :=
  match oc with
  | none => true
  | some c => ¬ c.isAlphanum

/-- Helper scan for `occursAsToken`, carrying the character preceding
the current position. -/
def occursAsTokenAux (needle : Str) : Str → Option Char → Bool
  | [], prev => leadsL needle [] && tokenBoundary prev
  | c :: t, prev =>
    (leadsL needle (c :: t) && tokenBoundary prev &&
      tokenBoundary ((c :: t).drop needle.length).head?) ||
      occursAsTokenAux needle t (some c)

/-- Modelled from the spec: the needle "appears as a whole token or path
segment" of the haystack — some occurrence is flanked on both sides by
nothing or by non-alphanumeric characters. -/
def occursAsToken (hay needle : Str) : Bool := occursAsTokenAux needle hay none

/-- C9 counterexample: in the text "ohioan" the state name "ohio" occurs
only as a proper substring of a longer word (and the code "oh" likewise),
yet `detect_regional_indicators` still produces the tag state_OH — the
matcher is a plain substring scan, not a whole-token matcher. -/
theorem C9_counterexample :
    stateTag (str "OH") ∈ detect_regional_indicators [] (str "ohioan") ∧
    occursAsToken (lowerL (str "ohioan")) (lowerL (str "Ohio")) = false ∧
    occursAsToken (lowerL (str "ohioan")) (lowerL (str "OH")) = false ∧
    occursAsToken (lowerL ([] : Str)) (lowerL (str "OH")) = false := by
  decide

lemma stateTag_inj {c1 c2 : Str} (h : stateTag c1 = stateTag c2) : c1 = c2 := by
  unfold stateTag at h
  exact List.append_cancel_left h

lemma stateTag_ne_regional (c : Str) : stateTag c ≠ str "regional_url_pattern" := by
  intro h
  have h2 : 's' :: (str "tate_" ++ c) = 'r' :: str "egional_url_pattern" := h
  injection h2 with h3 _
  exact absurd h3 (by decide)

lemma stateTag_ne_keyword (c kw : Str) : stateTag c ≠ keywordTag kw := by
  intro h
  have h2 : 's' :: (str "tate_" ++ c) =
      'k' :: (str "eyword_" ++ replaceAll kw (str " ") (str "_")) := h
  injection h2 with h3 _
  exact absurd h3 (by decide)

lemma assoc_key_unique {β : Type} :
    ∀ (l : List (Str × β)), (l.map Prod.fst).Nodup →
      ∀ c n1 n2, (c, n1) ∈ l → (c, n2) ∈ l → n1 = n2 := by
  intro l
  induction l with
  | nil => intro _ c n1 n2 h1; simp at h1
  | cons p rest ih =>
    intro hnd c n1 n2 h1 h2
    simp only [List.map_cons, List.nodup_cons] at hnd
    rcases List.mem_cons.mp h1 with e1 | m1 <;> rcases List.mem_cons.mp h2 with e2 | m2
    · rw [← e1] at e2
      exact (Prod.mk.injEq _ _ _ _ ▸ e2).2.symm
    · exfalso
      apply hnd.1
      rw [← e1]
      exact List.mem_map.mpr ⟨(c, n2), m2, rfl⟩
    · exfalso
      apply hnd.1
      rw [← e2]
      exact List.mem_map.mpr ⟨(c, n1), m1, rfl⟩
    · exact ih hnd.2 c n1 n2 m1 m2

lemma us_states_keys_nodup : (us_states.map Prod.fst).Nodup := by decide

/-- C9 amended: for every state (code, name) of the table, the tag
state_code is produced exactly when the lowercase code occurs as the URL
path segment slash-code-slash, or the uppercase code followed by an
underscore occurs in the lowercased URL (a comparison that can never
succeed on a lowercased string), or the lowercase state name occurs as a
plain substring of the lowercased text — occurrences inside longer words
included. -/
theorem C9_state_tag_iff (url text code name : Str)
    (h : (code, name) ∈ us_states) :
    stateTag code ∈ detect_regional_indicators url text ↔
      (containsSub (lowerL url) (str "/" ++ lowerL code ++ str "/") = true ∨
       containsSub (lowerL url) (code ++ str "_") = true ∨
       containsSub (lowerL text) (lowerL name) = true) := by
  unfold detect_regional_indicators
  simp only [List.mem_append, List.mem_filterMap]
  constructor
  · rintro (((hA | hB) | hC) | hD)
    · obtain ⟨pat, _, heq⟩ := hA
      split at heq
      · simp only [Option.some.injEq] at heq
        exact absurd heq.symm (stateTag_ne_regional code)
      · exact absurd heq (by simp)
    · obtain ⟨p, hp, heq⟩ := hB
      split at heq
      next hcond =>
        simp only [Option.some.injEq] at heq
        have hk := stateTag_inj heq
        rw [hk] at hcond
        rcases Bool.or_eq_true_iff.mp hcond with hc | hc
        · exact Or.inl hc
        · exact Or.inr (Or.inl hc)
      · exact absurd heq (by simp)
    · obtain ⟨kw, _, heq⟩ := hC
      split at heq
      · simp only [Option.some.injEq] at heq
        exact absurd heq.symm (stateTag_ne_keyword code kw)
      · exact absurd heq (by simp)
    · obtain ⟨p, hp, heq⟩ := hD
      split at heq
      next hcond =>
        simp only [Option.some.injEq] at heq
        have hk := stateTag_inj heq
        have hp' : (code, p.2) ∈ us_states := by
          rw [← hk]
          exact hp
        have hn := assoc_key_unique us_states us_states_keys_nodup code p.2 name hp' h
        rw [hn] at hcond
        exact Or.inr (Or.inr hcond)
      · exact absurd heq (by simp)
  · rintro (hc | hc | hc)
    · refine Or.inl (Or.inl (Or.inr ⟨(code, name), h, ?_⟩))
      rw [if_pos]
      exact Bool.or_eq_true_iff.mpr (Or.inl hc)
    · refine Or.inl (Or.inl (Or.inr ⟨(code, name), h, ?_⟩))
      rw [if_pos]
      exact Bool.or_eq_true_iff.mpr (Or.inr hc)
    · exact Or.inr ⟨(code, name), h, by rw [if_pos hc]⟩

theorem C9_state_tag_iff_witness :
    stateTag (str "OH") ∈ detect_regional_indicators [] (str "ohioan") ↔
      (containsSub (lowerL ([] : Str)) (str "/" ++ lowerL (str "OH") ++ str "/") = true ∨
       containsSub (lowerL ([] : Str)) (str "OH" ++ str "_") = true ∨
       containsSub (lowerL (str "ohioan")) (lowerL (str "Ohio")) = true) :=
  C9_state_tag_iff [] (str "ohioan") (str "OH") (str "Ohio") (by decide)
